import Mathlib

/-!
# Verification of the `uring-playground` reactor core

Shallow embedding of the reactor in `src/reactor.rs`, the link-batch
submission in `src/batch/link.rs`, and the kernel-ring interaction of
`Reactor::wait_for_progress`, together with proofs about the claims on the
operation state machine.

Modelling conventions:
* `Waker` (`std::task::Waker`) is an opaque identifier (`Nat`); `will_wake`
  is equality.  Wake-ups performed by a function are returned explicitly as a
  list of woken wakers.
* `Box<dyn Any>` retained-allocation blobs are opaque identifiers (`Nat`).
* `thunderdome::Index` is a slot number plus a generation; `to_bits` packs
  generation in the high 32 bits and slot in the low 32 bits, as in
  thunderdome.  The arena keeps, per slot, its current generation and an
  optional value; removal bumps the generation and pushes the slot on a
  LIFO free list, and insertion pops the free list or appends a new slot.
* `indexmap::IndexMap` is an insertion-ordered association list;
  `shift_remove` keeps the order of the remaining entries.
* Rust panics (`unwrap`, arena indexing on a dead handle, failed `assert!`)
  are modelled by functions returning `Option`, with `none` for the panic.
* The kernel submission ring and completion queue are external state; they
  are threaded explicitly through the model of `wait_for_progress`, with
  the outcomes of `squeue_wait` and `submit_and_wait` supplied as oracles.
-/

/-- Opaque model of `std::task::Waker`: `will_wake` is equality. -/
abbrev Waker := Nat

/-- Opaque model of a `Box<dyn Any>` retained-allocation blob. -/
abbrev Blob := Nat

/-- `thunderdome::Index`: an arena slot number plus a generation counter. -/
structure Index where
  slot : Nat
  generation : Nat
deriving DecidableEq, Repr

/-- `thunderdome::Index::to_bits`: generation in the high 32 bits, slot in
the low 32 bits (both are `u32` in the source). -/
def Index.to_bits (i : Index) : Nat :=
  i.generation % 2 ^ 32 * 2 ^ 32 + i.slot % 2 ^ 32

/-- `thunderdome::Index::from_bits`: splits a `u64`; fails when the
generation half is zero (generations start at 1). -/
def Index.from_bits (bits : Nat) : Option Index :=
  let g := bits / 2 ^ 32 % 2 ^ 32
  let s := bits % 2 ^ 32
  if g = 0 then none else some ⟨s, g⟩

/-- One slot of a `thunderdome::Arena`: its current generation and the
stored value when occupied. -/
structure ArenaSlot (α : Type) where
  generation : Nat
  value : Option α
deriving DecidableEq, Repr

/-- `thunderdome::Arena`: generational arena with a LIFO free list. -/
structure Arena (α : Type) where
  slots : List (ArenaSlot α)
  freeList : List Nat
deriving DecidableEq, Repr

namespace Arena

/-- `Arena::with_capacity` (capacity does not matter to the model). -/
def empty (α : Type) : Arena α := ⟨[], []⟩

/-- The value stored at a raw slot position, forgetting generations. -/
def slotValue (a : Arena α) (n : Nat) : Option α :=
  match a.slots[n]? with
  | some s => s.value
  | none => none

/-- Lookup through a generational handle (`arena.get(index)`); `none` when
the slot is vacant or the generation is stale. -/
def get (a : Arena α) (i : Index) : Option α :=
  match a.slots[i.slot]? with
  | some s => if s.generation = i.generation ∧ s.value.isSome then s.value else none
  | none => none

/-- `Arena::insert`: pop a free slot (LIFO) or append a fresh one;
generations start at 1. -/
def insert (a : Arena α) (v : α) : Arena α × Index :=
  match a.freeList with
  | [] =>
    (⟨a.slots ++ [⟨1, some v⟩], []⟩, ⟨a.slots.length, 1⟩)
  | s :: rest =>
    let g := ((a.slots[s]?).map ArenaSlot.generation).getD 1
    (⟨a.slots.set s ⟨g, some v⟩, rest⟩, ⟨s, g⟩)

/-- Overwrite the value behind a live handle (`arena[index] = v`); dead
handles leave the arena unchanged (the callers below only use it on
handles they have just looked up). -/
def setVal (a : Arena α) (i : Index) (v : α) : Arena α :=
  match a.slots[i.slot]? with
  | some s =>
    if s.generation = i.generation ∧ s.value.isSome then
      ⟨a.slots.set i.slot ⟨s.generation, some v⟩, a.freeList⟩
    else a
  | none => a

/-- The arena after freeing a slot: value cleared, generation bumped, slot
pushed on the free list. -/
def freeSlot (a : Arena α) (i : Index) : Arena α :=
  match a.slots[i.slot]? with
  | some s => ⟨a.slots.set i.slot ⟨s.generation + 1, none⟩, i.slot :: a.freeList⟩
  | none => a

/-- `Arena::remove`: take the value behind a live handle and free the
slot; `none` for a dead handle. -/
def remove (a : Arena α) (i : Index) : Option (α × Arena α) :=
  match a.get i with
  | some v => some (v, a.freeSlot i)
  | none => none

/-- Number of live (occupied) slots. -/
def liveCount (a : Arena α) : Nat :=
  (a.slots.filter (fun s => s.value.isSome)).length

/-- Well-formedness: the free list holds distinct, in-range, vacant slot
positions. -/
def WF (a : Arena α) : Prop :=
  a.freeList.Nodup ∧
  ∀ s ∈ a.freeList, s < a.slots.length ∧ a.slotValue s = none

instance (a : Arena α) [DecidableEq α] : Decidable a.WF := by
  unfold WF; infer_instance

end Arena

/-- `io_uring::squeue::Entry`: submission entry.  `op` abstracts the opcode
and parameters; `flags` is the `IOSQE_*` bit set; `user_data` the 64-bit
routing tag. -/
structure SEntry where
  op : Nat
  flags : Nat
  user_data : Nat
deriving DecidableEq, Repr

/-- `squeue::Flags::IO_LINK` (`IOSQE_IO_LINK = 1 << 2`). -/
def IO_LINK : Nat := 4

/-- `squeue::Entry::user_data(value)`: replace the user-data tag. -/
def SEntry.withUserData (e : SEntry) (d : Nat) : SEntry :=
  { e with user_data := d }

/-- `squeue::Entry::flags(f)`: OR the given flag bits in. -/
def SEntry.withFlags (e : SEntry) (f : Nat) : SEntry :=
  { e with flags := e.flags ||| f }

/-- Whether a submission entry carries the kernel link flag. -/
def SEntry.hasLink (e : SEntry) : Bool :=
  e.flags.testBit 2

/-- `io_uring::cqueue::Entry`: completion entry. -/
structure CEntry where
  user_data : Nat
  flags : Nat
  result : Int
deriving DecidableEq, Repr

/-- `cqueue::more(flags)`: the `IORING_CQE_F_MORE` bit (`1 << 1`),
signalling that further completions for the same operation will arrive. -/
def cqueueMore (flags : Nat) : Bool :=
  flags.testBit 1

/-- `Reactor`'s `OperationState`: the tracked state of one operation. -/
inductive OperationState where
  | Waiting (w : Waker)
  | Completed (e : CEntry)
  | Buffering (entries : List CEntry)
  | Ignored (data : Option Blob)
deriving DecidableEq, Repr

/-- `Reactor` (minus the kernel ring, which is external state threaded
explicitly through `waitForProgress`): the operation state arena and the
insertion-ordered staging buffer (`IndexMap<Index, squeue::Entry>`). -/
structure Reactor where
  tracked : Arena OperationState
  unsubmitted : List (Index × SEntry)
deriving DecidableEq, Repr

/-- A reactor as `Reactor::new` leaves it. -/
def Reactor.fresh : Reactor :=
  ⟨Arena.empty OperationState, []⟩

/-- `IndexMap::insert`: replace in place when the key is present, else
append. -/
def indexMapInsert (m : List (Index × SEntry)) (k : Index) (v : SEntry) :
    List (Index × SEntry) :=
  if m.any (fun p => p.1 = k) then
    m.map (fun p => if p.1 = k then (k, v) else p)
  else m ++ [(k, v)]

/-- `Poll` from `std::task`. -/
inductive Poll (α : Type) where
  | Ready (a : α)
  | Pending
deriving DecidableEq, Repr

/-- `Reactor::queue_submission`: allocate a state slot (`Waiting` with the
context's waker when one is supplied, else `Ignored(None)`), rewrite the
entry's user-data to the new handle's bit pattern, stage the entry, and
return the handle. -/
def Reactor.queue_submission (r : Reactor) (entry : SEntry)
    (context : Option Waker) : Reactor × Index :=
  let initial := match context with
    | some w => OperationState.Waiting w
    | none => OperationState.Ignored none
  let (tracked, index) := r.tracked.insert initial
  ⟨⟨tracked, indexMapInsert r.unsubmitted index (entry.withUserData index.to_bits)⟩,
    index⟩

/-- `Reactor::poll_completion`.  Returns the poll result, the updated
reactor, and the wakers woken by reference during the call; `none` models
the panics (unknown handle, polling an `Ignored(Some _)` slot). -/
def Reactor.poll_completion (r : Reactor) (index : Index) (context : Waker) :
    Option (Poll CEntry × Reactor × List Waker) :=
  match r.tracked.get index with
  | none => none
  | some (OperationState.Waiting waker) =>
    -- `will_wake` is equality in the model; the branch is observationally
    -- the unconditional store.
    let tracked := if waker = context then r.tracked
      else r.tracked.setVal index (OperationState.Waiting context)
    some (Poll.Pending, ⟨tracked, r.unsubmitted⟩, [])
  | some (OperationState.Completed entry) =>
    if cqueueMore entry.flags then
      some (Poll.Ready entry,
        ⟨r.tracked.setVal index (OperationState.Waiting context), r.unsubmitted⟩, [])
    else
      match r.tracked.remove index with
      | some (_, tracked) => some (Poll.Ready entry, ⟨tracked, r.unsubmitted⟩, [])
      | none => none
  | some (OperationState.Buffering entries) =>
    match entries with
    | [] => some (Poll.Pending, r, [])
    | entry :: rest =>
      if rest.isEmpty = false then
        some (Poll.Ready entry,
          ⟨r.tracked.setVal index (OperationState.Buffering rest), r.unsubmitted⟩,
          [context])
      else if cqueueMore entry.flags = false then
        match (r.tracked.setVal index (OperationState.Buffering rest)).remove index with
        | some (_, tracked) => some (Poll.Ready entry, ⟨tracked, r.unsubmitted⟩, [])
        | none => none
      else
        some (Poll.Ready entry,
          ⟨r.tracked.setVal index (OperationState.Waiting context), r.unsubmitted⟩, [])
  | some (OperationState.Ignored data) =>
    match data with
    | some _ => none
    | none =>
      some (Poll.Pending,
        ⟨r.tracked.setVal index (OperationState.Waiting context), r.unsubmitted⟩, [])

/-- `Reactor::ignore_operation`; `none` models the panics (unknown
handle). -/
def Reactor.ignore_operation (r : Reactor) (index : Index)
    (data : Option Blob) : Option Reactor :=
  if r.unsubmitted.any (fun p => p.1 = index) then
    match r.tracked.remove index with
    | some (_, tracked) =>
      some ⟨tracked, r.unsubmitted.filter (fun p => ¬ p.1 = index)⟩
    | none => none
  else
    match r.tracked.get index with
    | none => none
    | some previous =>
      let replaced := r.tracked.setVal index (OperationState.Ignored data)
      match previous with
      | OperationState.Waiting _ => some ⟨replaced, r.unsubmitted⟩
      | OperationState.Ignored _ => some ⟨replaced, r.unsubmitted⟩
      | OperationState.Completed entry =>
        if cqueueMore entry.flags then some ⟨replaced, r.unsubmitted⟩
        else
          match replaced.remove index with
          | some (_, tracked) => some ⟨tracked, r.unsubmitted⟩
          | none => none
      | OperationState.Buffering entries =>
        match entries.getLast? with
        | some entry =>
          if cqueueMore entry.flags then some ⟨replaced, r.unsubmitted⟩
          else
            match replaced.remove index with
            | some (_, tracked) => some ⟨tracked, r.unsubmitted⟩
            | none => none
        | none => some ⟨replaced, r.unsubmitted⟩

/-- One step of the completion-drain loop at the end of
`Reactor::wait_for_progress`: decode the handle from the entry's user-data
and advance the corresponding state, returning the updated arena and the
wakers woken.  `none` models the panics (`from_bits` failure, completion
for an untracked handle). -/
def processCompletion (tracked : Arena OperationState) (entry : CEntry) :
    Option (Arena OperationState × List Waker) :=
  match Index.from_bits entry.user_data with
  | none => none
  | some index =>
    match tracked.get index with
    | none => none
    | some (OperationState.Waiting waker) =>
      some (tracked.setVal index (OperationState.Completed entry), [waker])
    | some (OperationState.Completed previous) =>
      some (tracked.setVal index (OperationState.Buffering [previous, entry]), [])
    | some (OperationState.Buffering entries) =>
      some (tracked.setVal index (OperationState.Buffering (entries ++ [entry])), [])
    | some (OperationState.Ignored _) =>
      if cqueueMore entry.flags then some (tracked, [])
      else
        match tracked.remove index with
        | some (_, tracked) => some (tracked, [])
        | none => none

/-- The whole completion-drain loop over the drained completion entries. -/
def drainCompletions (tracked : Arena OperationState) :
    List CEntry → Option (Arena OperationState × List Waker)
  | [] => some (tracked, [])
  | entry :: rest =>
    match processCompletion tracked entry with
    | none => none
    | some (tracked, woken) =>
      match drainCompletions tracked rest with
      | none => none
      | some (tracked, moreWoken) => some (tracked, woken ++ moreWoken)

/-- The kernel submission ring: bounded queue shared with the kernel.
`pending` holds pushed entries the kernel has not yet picked up;
`consumed` records, in order, every entry the kernel has picked up. -/
structure KernelRing where
  capacity : Nat
  pending : List SEntry
  consumed : List SEntry
deriving DecidableEq, Repr

/-- The ring after the kernel picks up every pending entry. -/
def KernelRing.consumeAll (k : KernelRing) : KernelRing :=
  ⟨k.capacity, [], k.consumed ++ k.pending⟩

/-- `KernelRing.push`: `squeue.push` succeeds only while there is room. -/
def KernelRing.push (k : KernelRing) (e : SEntry) : Option KernelRing :=
  if k.pending.length < k.capacity then some ⟨k.capacity, k.pending ++ [e], k.consumed⟩
  else none

/-- Oracle outcome of one `submitter.squeue_wait()` call: either the
kernel made room by picking up the pending entries, or the call failed. -/
inductive SqWaitOutcome where
  | freed
  | failed (errno : Nat)
deriving DecidableEq, Repr

/-- The inner `while unsafe { submission.push(&entry) }.is_err()` loop of
`wait_for_progress` for a single staged entry: retry the push, invoking
`squeue_wait` (whose outcomes come from the oracle) whenever the ring is
full; `?` propagates a `squeue_wait` failure.  `none` models the loop
blocking forever (oracle exhausted with the ring still full). -/
def pushOne (ring : KernelRing) (entry : SEntry) :
    List SqWaitOutcome → Option (KernelRing × List SqWaitOutcome × Except Nat Unit)
  | [] =>
    match ring.push entry with
    | some ring => some (ring, [], Except.ok ())
    | none => none
  | outcome :: rest =>
    match ring.push entry with
    | some ring => some (ring, outcome :: rest, Except.ok ())
    | none =>
      match outcome with
      | SqWaitOutcome.failed errno => some (ring, rest, Except.error errno)
      | SqWaitOutcome.freed => pushOne ring.consumeAll entry rest

/-- The `try_fold` drain of the staging buffer into the kernel ring, in
insertion order, counting the pushes; on error the already-pushed prefix
stays in the ring. -/
def pushAll (ring : KernelRing) :
    List SEntry → List SqWaitOutcome →
    Option (KernelRing × List SqWaitOutcome × Except Nat Nat)
  | [], oracle => some (ring, oracle, Except.ok 0)
  | entry :: rest, oracle =>
    match pushOne ring entry oracle with
    | none => none
    | some (ring, oracle, Except.error errno) => some (ring, oracle, Except.error errno)
    | some (ring, oracle, Except.ok ()) =>
      match pushAll ring rest oracle with
      | none => none
      | some (ring, oracle, result) =>
        some (ring, oracle, result.map (· + 1))

/-- Oracle outcome of the `submit_and_wait` / `submit_with_args` call. -/
inductive SubmitOutcome where
  | ok
  | etime
  | failed (errno : Nat)
deriving DecidableEq, Repr

deriving instance DecidableEq for Except

/-- The result of a `Reactor::wait_for_progress` call in the model: the
reactor and ring afterwards, the wakers woken during the completion drain,
and the returned `Result`. -/
structure WaitResult where
  reactor : Reactor
  ring : KernelRing
  woken : List Waker
  result : Except Nat Unit
deriving DecidableEq, Repr

/-- `Reactor::wait_for_progress`.  External kernel behaviour enters as
oracles: `sqOracle` for the `squeue_wait` calls, `submitOutcome` for the
submit syscall, `cqBefore` for the completion entries already in the
completion queue on entry, and `arrivals` for those the submit call adds.
`none` models a panic (`ETIME` without a timeout, untracked completion)
or an indefinitely blocked `squeue_wait` loop.  Note that the staging
buffer is drained by `drain(..)` — it is cleared even on the early-error
returns, because dropping the drain iterator removes the remaining
entries. -/
def Reactor.wait_for_progress (r : Reactor) (ring : KernelRing)
    (sqOracle : List SqWaitOutcome) (timeout : Option Nat)
    (submitOutcome : SubmitOutcome) (cqBefore arrivals : List CEntry) :
    Option WaitResult :=
  let staged := r.unsubmitted
  let drained : Reactor := ⟨r.tracked, []⟩
  match pushAll ring (staged.map (fun p => p.2)) sqOracle with
  | none => none
  | some (ring, _, Except.error errno) =>
    some ⟨drained, ring, [], Except.error errno⟩
  | some (ring, _, Except.ok _pushed) =>
    -- `wanted` only controls how long the kernel call blocks; it has no
    -- effect on the observable state, so the model drops it after the
    -- `pushed == 0 && completion.is_empty()` computation.
    let _wanted := if _pushed = 0 ∧ cqBefore.isEmpty then 1 else 0
    match submitOutcome with
    | SubmitOutcome.failed errno => some ⟨drained, ring, [], Except.error errno⟩
    | SubmitOutcome.etime =>
      if timeout.isSome then
        match drainCompletions drained.tracked (cqBefore ++ arrivals) with
        | none => none
        | some (tracked, woken) =>
          some ⟨⟨tracked, []⟩, ring.consumeAll, woken, Except.ok ()⟩
      else none
    | SubmitOutcome.ok =>
      match drainCompletions drained.tracked (cqBefore ++ arrivals) with
      | none => none
      | some (tracked, woken) =>
        some ⟨⟨tracked, []⟩, ring.consumeAll, woken, Except.ok ()⟩

/-- `Batch::submit_entries` as generated by `define_link_structs!` in
`src/batch/link.rs`, abstracted over the arity: build every constituent's
submission, OR the `IO_LINK` flag into every entry except the last
(`entries.len() != 0` after `next()` means more entries remain), and queue
each through `Reactor::queue_submission` in declaration order. -/
def submitEntriesLinked (r : Reactor) (context : Option Waker) :
    List SEntry → Reactor × List Index
  | [] => (r, [])
  | entry :: rest =>
    let entry := if rest.length ≠ 0 then entry.withFlags IO_LINK else entry
    let (r, index) := r.queue_submission entry context
    let (r, ids) := submitEntriesLinked r context rest
    (r, index :: ids)

/-- The initial state picked by `queue_submission` from the optional
context (`context.map(Context::waker).cloned().map_or(Ignored(None),
Waiting)`). -/
def initialState (context : Option Waker) : OperationState :=
  match context with
  | some w => OperationState.Waiting w
  | none => OperationState.Ignored none

/-- The flag pass of the linked `submit_entries`: OR `IO_LINK` into every
entry except the last (helper naming the transformation the code applies,
used to state theorems). -/
def linkSubs : List SEntry → List SEntry
  | [] => []
  | entry :: rest =>
    (if rest.length ≠ 0 then entry.withFlags IO_LINK else entry) :: linkSubs rest

/-- Invariant: every key of the staging buffer is a live arena handle
(the reactor never frees a slot while its entry is still staged). -/
def Reactor.keysLive (r : Reactor) : Prop :=
  ∀ p ∈ r.unsubmitted, (r.tracked.get p.1).isSome = true

instance (r : Reactor) : Decidable r.keysLive := by
  unfold Reactor.keysLive; infer_instance

/-- Invariant: every staged entry's user-data is the bit pattern of its
operation identifier. -/
def Reactor.userDataConsistent (r : Reactor) : Prop :=
  ∀ p ∈ r.unsubmitted, p.2.user_data = p.1.to_bits

instance (r : Reactor) : Decidable r.userDataConsistent := by
  unfold Reactor.userDataConsistent; infer_instance

/-- `queue_submission` called once per element of a list, collecting the
returned identifiers (the staging phase of the round-trip scenario). -/
def queueAll (r : Reactor) : List (SEntry × Option Waker) → Reactor × List Index
  | [] => (r, [])
  | (entry, context) :: rest =>
    let (r, index) := r.queue_submission entry context
    let (r, ids) := queueAll r rest
    (r, index :: ids)

/-- `ignore_operation` called on each identifier in turn, with the
retained allocations chosen by `data`; `none` if any call panics. -/
def ignoreAll (r : Reactor) (data : Index → Option Blob) :
    List Index → Option Reactor
  | [] => some r
  | index :: rest =>
    match r.ignore_operation index (data index) with
    | none => none
    | some r => ignoreAll r data rest

/-- Sample terminal completion entry addressed at arena slot 0,
generation 1 (concrete instantiations for the theorems below). -/
def eDone : CEntry := ⟨Index.to_bits ⟨0, 1⟩, 0, 0⟩

/-- Sample completion entry with the "more to come" bit set. -/
def eMore : CEntry := ⟨Index.to_bits ⟨0, 1⟩, 2, 0⟩

/-- A one-slot arena holding the given state at slot 0, generation 1. -/
def arenaWith (st : OperationState) : Arena OperationState :=
  ⟨[⟨1, some st⟩], []⟩

/-- A reactor tracking exactly one operation in the given state, with an
empty staging buffer. -/
def reactorWith (st : OperationState) : Reactor :=
  ⟨arenaWith st, []⟩

/-! ## Arena lemmas -/

theorem lt_length_of_getElem? {β : Type _} {l : List β} {n : Nat} {x : β}
    (h : l[n]? = some x) : n < l.length := by
  by_contra hge
  rw [List.getElem?_eq_none (Nat.le_of_not_lt hge)] at h
  exact Option.noConfusion h

namespace Arena

variable {α : Type}

theorem get_unfold (a : Arena α) (i : Index) :
    a.get i = match a.slots[i.slot]? with
      | some s => if s.generation = i.generation ∧ s.value.isSome then s.value else none
      | none => none := rfl

theorem slotValue_unfold (a : Arena α) (n : Nat) :
    a.slotValue n = match a.slots[n]? with
      | some s => s.value
      | none => none := rfl

theorem slotValue_of_get {a : Arena α} {i : Index} {v : α}
    (h : a.get i = some v) : a.slotValue i.slot = some v := by
  rw [get_unfold] at h
  rw [slotValue_unfold]
  cases hs : a.slots[i.slot]? with
  | none => simp [hs] at h
  | some s =>
    simp only [hs] at h ⊢
    split at h
    · exact h
    · exact absurd h (by simp)

theorem get_eq_none_of_slotValue {a : Arena α} {i : Index}
    (h : a.slotValue i.slot = none) : a.get i = none := by
  rw [slotValue_unfold] at h
  rw [get_unfold]
  cases hs : a.slots[i.slot]? with
  | none => simp
  | some s =>
    simp only [hs] at h ⊢
    simp [h]

theorem insert_spec {a : Arena α} (hwf : a.WF) (v : α) :
    a.slotValue (a.insert v).2.slot = none ∧
    (a.insert v).1.slotValue (a.insert v).2.slot = some v ∧
    (a.insert v).1.get (a.insert v).2 = some v ∧
    (∀ n, n ≠ (a.insert v).2.slot → (a.insert v).1.slots[n]? = a.slots[n]?) ∧
    (a.insert v).1.WF := by
  obtain ⟨hnd, hfree⟩ := hwf
  unfold insert
  cases hfl : a.freeList with
  | nil =>
    simp only
    refine ⟨?_, ?_, ?_, ?_, ?_, ?_⟩
    · rw [slotValue_unfold]
      simp
    · rw [slotValue_unfold]
      simp
    · rw [get_unfold]
      simp
    · intro n hn
      rcases lt_trichotomy n a.slots.length with hlt | heq | hgt
      · exact List.getElem?_append_left hlt
      · exact absurd heq hn
      · rw [List.getElem?_eq_none (l := a.slots ++ _) (by simp; omega),
          List.getElem?_eq_none (Nat.le_of_lt hgt)]
    · exact List.nodup_nil
    · intro s hs
      exact absurd hs (List.not_mem_nil s)
  | cons s rest =>
    rw [hfl] at hnd hfree
    obtain ⟨hslen, hsval⟩ := hfree s (by simp)
    rw [slotValue_unfold] at hsval
    cases hsv : a.slots[s]? with
    | none => exact absurd (List.getElem?_eq_none_iff.mp hsv) (by omega)
    | some t =>
      simp only [hsv] at hsval
      simp only [hsv]
      refine ⟨?_, ?_, ?_, ?_, ?_, ?_⟩
      · rw [slotValue_unfold]
        simp only [hsv]
        exact hsval
      · rw [slotValue_unfold]
        simp [List.getElem?_set_self hslen]
      · rw [get_unfold]
        simp [List.getElem?_set_self hslen]
      · intro n hn
        exact List.getElem?_set_ne (Ne.symm hn)
      · exact (List.nodup_cons.mp hnd).2
      · intro t' ht'
        have hne : t' ≠ s := fun h => (List.nodup_cons.mp hnd).1 (h ▸ ht')
        have hmem := hfree t' (List.mem_cons_of_mem s ht')
        refine ⟨by simpa using hmem.1, ?_⟩
        rw [slotValue_unfold]
        simp only [List.getElem?_set_ne (Ne.symm hne)]
        rw [slotValue_unfold] at hmem
        exact hmem.2

theorem freeSlot_spec {a : Arena α} {i : Index} {v : α} (h : a.get i = some v) :
    (a.freeSlot i).slotValue i.slot = none ∧
    (∀ n, n ≠ i.slot → (a.freeSlot i).slots[n]? = a.slots[n]?) ∧
    (a.freeSlot i).get i = none ∧
    (a.freeSlot i).slots.length = a.slots.length := by
  have hsv := slotValue_of_get h
  rw [slotValue_unfold] at hsv
  unfold freeSlot
  cases hs : a.slots[i.slot]? with
  | none => simp [hs] at hsv
  | some s =>
    have hlen : i.slot < a.slots.length := lt_length_of_getElem? hs
    simp only
    refine ⟨?_, ?_, ?_, by simp⟩
    · rw [slotValue_unfold]
      simp [List.getElem?_set_self hlen]
    · intro n hn
      exact List.getElem?_set_ne (Ne.symm hn)
    · rw [get_unfold]
      simp [List.getElem?_set_self hlen]

theorem WF_freeSlot {a : Arena α} {i : Index} {v : α} (hwf : a.WF)
    (h : a.get i = some v) : (a.freeSlot i).WF := by
  obtain ⟨hnd, hfree⟩ := hwf
  have hsv := slotValue_of_get h
  have hnotfree : i.slot ∉ a.freeList := by
    intro hmem
    rw [(hfree i.slot hmem).2] at hsv
    exact Option.noConfusion hsv
  rw [slotValue_unfold] at hsv
  unfold freeSlot
  cases hs : a.slots[i.slot]? with
  | none => simp [hs] at hsv
  | some s =>
    have hlen : i.slot < a.slots.length := lt_length_of_getElem? hs
    refine ⟨List.nodup_cons.mpr ⟨hnotfree, hnd⟩, ?_⟩
    intro t ht
    rcases List.mem_cons.mp ht with rfl | ht'
    · refine ⟨by simpa using hlen, ?_⟩
      rw [slotValue_unfold]
      simp [List.getElem?_set_self hlen]
    · have hmem := hfree t ht'
      have hne : t ≠ i.slot := fun h' => hnotfree (h' ▸ ht')
      refine ⟨by simpa using hmem.1, ?_⟩
      rw [slotValue_unfold]
      simp only [List.getElem?_set_ne (Ne.symm hne)]
      rw [slotValue_unfold] at hmem
      exact hmem.2

theorem remove_eq {a : Arena α} {i : Index} {v : α} (h : a.get i = some v) :
    a.remove i = some (v, a.freeSlot i) := by
  unfold remove
  rw [h]

theorem setVal_spec {a : Arena α} {i : Index} {w : α} (h : a.get i = some w)
    (v : α) :
    (a.setVal i v).get i = some v ∧
    (∀ n, n ≠ i.slot → (a.setVal i v).slots[n]? = a.slots[n]?) ∧
    (a.setVal i v).slotValue i.slot = some v ∧
    (a.setVal i v).freeList = a.freeList ∧
    (a.setVal i v).slots.length = a.slots.length := by
  rw [get_unfold] at h
  unfold setVal
  cases hs : a.slots[i.slot]? with
  | none => simp [hs] at h
  | some s =>
    simp only [hs] at h
    have hlen : i.slot < a.slots.length := lt_length_of_getElem? hs
    split at h
    · next hc =>
      simp only [hs, if_pos hc]
      refine ⟨?_, ?_, ?_, ?_, ?_⟩
      · rw [get_unfold]
        simp [List.getElem?_set_self hlen, hc.1]
      · intro n hn
        exact List.getElem?_set_ne (Ne.symm hn)
      · rw [slotValue_unfold]
        simp [List.getElem?_set_self hlen]
      · trivial
      · simp
    · exact absurd h (by simp)

theorem WF_setVal {a : Arena α} {i : Index} {w : α} (hwf : a.WF)
    (h : a.get i = some w) (v : α) : (a.setVal i v).WF := by
  obtain ⟨hnd, hfree⟩ := hwf
  have hsv := slotValue_of_get h
  have hnotfree : i.slot ∉ a.freeList := by
    intro hmem
    rw [(hfree i.slot hmem).2] at hsv
    exact Option.noConfusion hsv
  obtain ⟨_, hne, _, hfl, hlen⟩ := setVal_spec h v
  refine ⟨hfl ▸ hnd, ?_⟩
  intro t ht
  rw [hfl] at ht
  have hmem := hfree t ht
  have htne : t ≠ i.slot := fun h' => hnotfree (h' ▸ ht)
  refine ⟨by rw [hlen]; exact hmem.1, ?_⟩
  rw [slotValue_unfold]
  rw [hne t htne]
  rw [slotValue_unfold] at hmem
  exact hmem.2

theorem freeSlot_setVal {a : Arena α} {i : Index} {w : α}
    (h : a.get i = some w) (v : α) :
    (a.setVal i v).freeSlot i = a.freeSlot i := by
  rw [get_unfold] at h
  unfold setVal freeSlot
  cases hs : a.slots[i.slot]? with
  | none => simp [hs] at h
  | some s =>
    simp only [hs] at h
    have hlen : i.slot < a.slots.length := lt_length_of_getElem? hs
    split at h
    · next hc =>
      simp only [hs, if_pos hc, List.getElem?_set_self hlen, List.set_set]
    · exact absurd h (by simp)

theorem get_of_slots_eq {a b : Arena α} {i : Index}
    (h : b.slots[i.slot]? = a.slots[i.slot]?) : b.get i = a.get i := by
  rw [get_unfold, get_unfold, h]

end Arena

/-! ## Reactor lemmas -/

theorem indexMapInsert_of_fresh {m : List (Index × SEntry)} {k : Index}
    (h : ∀ p ∈ m, p.1 ≠ k) (v : SEntry) : indexMapInsert m k v = m ++ [(k, v)] := by
  unfold indexMapInsert
  rw [if_neg]
  intro hany
  rw [List.any_eq_true] at hany
  obtain ⟨p, hp, hpk⟩ := hany
  exact h p hp (by simpa using hpk)

theorem Reactor.queue_submission_eq (r : Reactor) (entry : SEntry)
    (context : Option Waker) :
    r.queue_submission entry context =
      (⟨(r.tracked.insert (initialState context)).1,
        indexMapInsert r.unsubmitted (r.tracked.insert (initialState context)).2
          (entry.withUserData (r.tracked.insert (initialState context)).2.to_bits)⟩,
       (r.tracked.insert (initialState context)).2) := by
  cases context <;> rfl

/-- Everything `queue_submission` does, for a well-formed reactor: the
returned identifier is fresh, the slot holds the initial state, the entry
is appended to the staging buffer with rewritten user-data, and the
invariants are preserved. -/
theorem Reactor.queue_submission_facts {r : Reactor} (hwf : r.tracked.WF)
    (hkl : r.keysLive) (entry : SEntry) (context : Option Waker) :
    r.tracked.get (r.queue_submission entry context).2 = none ∧
    r.tracked.slotValue (r.queue_submission entry context).2.slot = none ∧
    (r.queue_submission entry context).1.tracked.get
      (r.queue_submission entry context).2 = some (initialState context) ∧
    (r.queue_submission entry context).1.unsubmitted =
      r.unsubmitted ++ [((r.queue_submission entry context).2,
        entry.withUserData (r.queue_submission entry context).2.to_bits)] ∧
    (∀ n, n ≠ (r.queue_submission entry context).2.slot →
      (r.queue_submission entry context).1.tracked.slots[n]? = r.tracked.slots[n]?) ∧
    (r.queue_submission entry context).1.tracked.WF ∧
    (r.queue_submission entry context).1.keysLive := by
  obtain ⟨hfresh, hself, hget, hne, hwf'⟩ := Arena.insert_spec hwf (initialState context)
  rw [Reactor.queue_submission_eq]
  simp only
  have hkeyne : ∀ p ∈ r.unsubmitted, p.1 ≠ (r.tracked.insert (initialState context)).2 := by
    intro p hp hpk
    have hlive := hkl p hp
    rw [Option.isSome_iff_exists] at hlive
    obtain ⟨v, hv⟩ := hlive
    have := Arena.slotValue_of_get hv
    rw [hpk, hfresh] at this
    exact Option.noConfusion this
  refine ⟨Arena.get_eq_none_of_slotValue hfresh, hfresh, hget,
    indexMapInsert_of_fresh hkeyne _, hne, hwf', ?_⟩
  intro p hp
  rw [indexMapInsert_of_fresh hkeyne] at hp
  rcases List.mem_append.mp hp with hp' | hp'
  · have hlive := hkl p hp'
    rw [Option.isSome_iff_exists] at hlive
    obtain ⟨v, hv⟩ := hlive
    have hvs := Arena.slotValue_of_get hv
    have hslotne : p.1.slot ≠ (r.tracked.insert (initialState context)).2.slot := by
      intro he
      rw [he, hfresh] at hvs
      exact Option.noConfusion hvs
    rw [Arena.get_of_slots_eq (hne p.1.slot hslotne), hv]
    rfl
  · have : p = ((r.tracked.insert (initialState context)).2,
        entry.withUserData (r.tracked.insert (initialState context)).2.to_bits) := by
      simpa using hp'
    rw [this]
    simp [hget]

/-! ## Claim theorems: the operation state machine -/

/-- C8: `queue_submission(entry, notifier?)` allocates a fresh state slot
(`Waiting(notifier)` when a notifier was supplied, `Ignored(None)`
otherwise), rewrites the entry's user-data to the bit pattern of the new
slot's identifier, appends the rewritten entry at the end of the staging
buffer keyed by that identifier, and returns the identifier; consequently
every staged entry's user-data equals the bit pattern of its operation
identifier. -/
theorem queue_submission_behaviour {r : Reactor} (hwf : r.tracked.WF)
    (hkl : r.keysLive) (entry : SEntry) (context : Option Waker) :
    r.tracked.get (r.queue_submission entry context).2 = none ∧
    (r.queue_submission entry context).1.tracked.get
      (r.queue_submission entry context).2 =
      some (match context with
        | some w => OperationState.Waiting w
        | none => OperationState.Ignored none) ∧
    (r.queue_submission entry context).1.unsubmitted =
      r.unsubmitted ++ [((r.queue_submission entry context).2,
        entry.withUserData (r.queue_submission entry context).2.to_bits)] ∧
    (entry.withUserData (r.queue_submission entry context).2.to_bits).user_data =
      (r.queue_submission entry context).2.to_bits ∧
    (r.userDataConsistent → (r.queue_submission entry context).1.userDataConsistent) := by
  obtain ⟨hfresh, _, hget, hunsub, _, _, _⟩ :=
    Reactor.queue_submission_facts hwf hkl entry context
  refine ⟨hfresh, ?_, hunsub, rfl, ?_⟩
  · rw [hget]
    cases context <;> rfl
  · intro hcons p hp
    rw [hunsub] at hp
    rcases List.mem_append.mp hp with hp' | hp'
    · exact hcons p hp'
    · have : p = ((r.queue_submission entry context).2,
          entry.withUserData (r.queue_submission entry context).2.to_bits) := by
        simpa using hp'
      rw [this]
      rfl

/-- C3: `poll_completion` on a `Completed(e)` slot returns `Ready(e)`; when
`e` carries the "more to come" bit the slot becomes `Waiting` with the
polling context's waker, otherwise the slot is removed from the arena. -/
theorem poll_completion_completed {r : Reactor} {i : Index} {e : CEntry}
    (context : Waker) (h : r.tracked.get i = some (OperationState.Completed e)) :
    (cqueueMore e.flags = true →
      r.poll_completion i context =
        some (Poll.Ready e,
          ⟨r.tracked.setVal i (OperationState.Waiting context), r.unsubmitted⟩, [])) ∧
    (cqueueMore e.flags = false →
      r.poll_completion i context =
        some (Poll.Ready e, ⟨r.tracked.freeSlot i, r.unsubmitted⟩, []) ∧
      (r.tracked.freeSlot i).get i = none) := by
  unfold Reactor.poll_completion
  rw [h]
  constructor
  · intro hm
    simp [hm]
  · intro hm
    refine ⟨?_, (Arena.freeSlot_spec h).2.2.1⟩
    simp [hm, Arena.remove_eq h]

/-- C2: `poll_completion` on a `Buffering([e₀, e₁, …])` slot pops `e₀` and:
with more entries left it wakes the context's waker by reference and
returns `Ready(e₀)` with the slot still `Buffering`; with the buffer empty
and `e₀` terminal the slot is freed; with the buffer empty and `e₀`
carrying "more to come" the slot becomes `Waiting` with the context's
waker. -/
theorem poll_completion_buffering {r : Reactor} {i : Index} {e : CEntry}
    {rest : List CEntry} (context : Waker)
    (h : r.tracked.get i = some (OperationState.Buffering (e :: rest))) :
    (rest ≠ [] →
      r.poll_completion i context =
        some (Poll.Ready e,
          ⟨r.tracked.setVal i (OperationState.Buffering rest), r.unsubmitted⟩,
          [context])) ∧
    (rest = [] → cqueueMore e.flags = false →
      r.poll_completion i context =
        some (Poll.Ready e, ⟨r.tracked.freeSlot i, r.unsubmitted⟩, []) ∧
      (r.tracked.freeSlot i).get i = none) ∧
    (rest = [] → cqueueMore e.flags = true →
      r.poll_completion i context =
        some (Poll.Ready e,
          ⟨r.tracked.setVal i (OperationState.Waiting context), r.unsubmitted⟩, [])) := by
  unfold Reactor.poll_completion
  rw [h]
  refine ⟨?_, ?_, ?_⟩
  · intro hne
    have : rest.isEmpty = false := by
      cases rest with
      | nil => exact absurd rfl hne
      | cons _ _ => rfl
    simp [this]
  · rintro rfl hm
    have hset := (Arena.setVal_spec h (OperationState.Buffering [])).1
    simp only [List.isEmpty_nil, hm]
    rw [Arena.remove_eq hset, Arena.freeSlot_setVal h]
    exact ⟨by simp, (Arena.freeSlot_spec h).2.2.1⟩
  · rintro rfl hm
    simp [hm]

/-- C9: `poll_completion` on an `Ignored(None)` slot stores the context's
waker (state becomes `Waiting`) and returns `Pending`; on an
`Ignored(Some _)` slot the internal assertion fires (modelled as `none`):
the call panics. -/
theorem poll_completion_ignored {r : Reactor} {i : Index} (context : Waker) :
    (r.tracked.get i = some (OperationState.Ignored none) →
      r.poll_completion i context =
        some (Poll.Pending,
          ⟨r.tracked.setVal i (OperationState.Waiting context), r.unsubmitted⟩, [])) ∧
    (∀ d : Blob, r.tracked.get i = some (OperationState.Ignored (some d)) →
      r.poll_completion i context = none) := by
  constructor
  · intro h
    unfold Reactor.poll_completion
    rw [h]
  · intro d h
    unfold Reactor.poll_completion
    rw [h]

/-- C1: during the completion drain of `wait_for_progress`, the state slot
decoded from a drained entry's user-data advances as follows: `Waiting(w)`
becomes `Completed(entry)` and `w` is signalled; `Completed(e_prev)`
becomes `Buffering([e_prev, entry])`; `Buffering(q)` gets `entry`
appended; `Ignored(_)` is retained when the entry carries "more to come"
and freed otherwise. -/
theorem processCompletion_cases {tracked : Arena OperationState}
    {entry : CEntry} {i : Index}
    (hdec : Index.from_bits entry.user_data = some i) :
    (∀ w, tracked.get i = some (OperationState.Waiting w) →
      processCompletion tracked entry =
        some (tracked.setVal i (OperationState.Completed entry), [w])) ∧
    (∀ e, tracked.get i = some (OperationState.Completed e) →
      processCompletion tracked entry =
        some (tracked.setVal i (OperationState.Buffering [e, entry]), [])) ∧
    (∀ q, tracked.get i = some (OperationState.Buffering q) →
      processCompletion tracked entry =
        some (tracked.setVal i (OperationState.Buffering (q ++ [entry])), [])) ∧
    (∀ d, tracked.get i = some (OperationState.Ignored d) →
      (cqueueMore entry.flags = true →
        processCompletion tracked entry = some (tracked, [])) ∧
      (cqueueMore entry.flags = false →
        processCompletion tracked entry = some (tracked.freeSlot i, []) ∧
        (tracked.freeSlot i).get i = none)) := by
  refine ⟨?_, ?_, ?_, ?_⟩
  · intro w h
    unfold processCompletion
    simp only [hdec, h]
  · intro e h
    unfold processCompletion
    simp only [hdec, h]
  · intro q h
    unfold processCompletion
    simp only [hdec, h]
  · intro d h
    constructor
    · intro hm
      unfold processCompletion
      simp only [hdec, h]
      simp [hm]
    · intro hm
      refine ⟨?_, (Arena.freeSlot_spec h).2.2.1⟩
      unfold processCompletion
      simp only [hdec, h]
      simp [hm, Arena.remove_eq h]

/-- C4: `ignore_operation(id, data)` on an identifier no longer staged
overwrites the slot to `Ignored(data)`, except that the slot is freed
immediately when the prior state was `Completed(e)` with `e` terminal or
`Buffering` whose last entry is terminal; `Waiting`, `Ignored`, and
`Completed`/`Buffering` whose final entry carries "more to come" leave the
slot live as `Ignored(data)` (an empty `Buffering` is likewise
overwritten). -/
theorem ignore_operation_submitted {r : Reactor} {i : Index}
    (data : Option Blob)
    (hstaged : r.unsubmitted.any (fun p => p.1 = i) = false) :
    (∀ w, r.tracked.get i = some (OperationState.Waiting w) →
      r.ignore_operation i data =
        some ⟨r.tracked.setVal i (OperationState.Ignored data), r.unsubmitted⟩) ∧
    (∀ d, r.tracked.get i = some (OperationState.Ignored d) →
      r.ignore_operation i data =
        some ⟨r.tracked.setVal i (OperationState.Ignored data), r.unsubmitted⟩) ∧
    (∀ e, r.tracked.get i = some (OperationState.Completed e) →
      (cqueueMore e.flags = true →
        r.ignore_operation i data =
          some ⟨r.tracked.setVal i (OperationState.Ignored data), r.unsubmitted⟩) ∧
      (cqueueMore e.flags = false →
        r.ignore_operation i data = some ⟨r.tracked.freeSlot i, r.unsubmitted⟩ ∧
        (r.tracked.freeSlot i).get i = none)) ∧
    (∀ q e, r.tracked.get i = some (OperationState.Buffering q) →
      q.getLast? = some e →
      (cqueueMore e.flags = true →
        r.ignore_operation i data =
          some ⟨r.tracked.setVal i (OperationState.Ignored data), r.unsubmitted⟩) ∧
      (cqueueMore e.flags = false →
        r.ignore_operation i data = some ⟨r.tracked.freeSlot i, r.unsubmitted⟩ ∧
        (r.tracked.freeSlot i).get i = none)) ∧
    (r.tracked.get i = some (OperationState.Buffering []) →
      r.ignore_operation i data =
        some ⟨r.tracked.setVal i (OperationState.Ignored data), r.unsubmitted⟩) := by
  refine ⟨?_, ?_, ?_, ?_, ?_⟩
  · intro w h
    unfold Reactor.ignore_operation
    simp only [hstaged, Bool.false_eq_true, if_false, h]
  · intro d h
    unfold Reactor.ignore_operation
    simp only [hstaged, Bool.false_eq_true, if_false, h]
  · intro e h
    have hset := (Arena.setVal_spec h (OperationState.Ignored data)).1
    constructor
    · intro hm
      unfold Reactor.ignore_operation
      simp only [hstaged, Bool.false_eq_true, if_false, h]
      simp [hm]
    · intro hm
      refine ⟨?_, (Arena.freeSlot_spec h).2.2.1⟩
      unfold Reactor.ignore_operation
      simp only [hstaged, Bool.false_eq_true, if_false, h, hm,
        Arena.remove_eq hset, Arena.freeSlot_setVal h]
  · intro q e h hq
    have hset := (Arena.setVal_spec h (OperationState.Ignored data)).1
    constructor
    · intro hm
      unfold Reactor.ignore_operation
      simp only [hstaged, Bool.false_eq_true, if_false, h, hq]
      simp [hm]
    · intro hm
      refine ⟨?_, (Arena.freeSlot_spec h).2.2.1⟩
      unfold Reactor.ignore_operation
      simp only [hstaged, Bool.false_eq_true, if_false, h, hq, hm,
        Arena.remove_eq hset, Arena.freeSlot_setVal h]
  · intro h
    unfold Reactor.ignore_operation
    simp only [hstaged, Bool.false_eq_true, if_false, h, List.getLast?_nil]

/-- C10: whenever `wait_for_progress` returns — successfully or with an
error — the staging buffer is empty (the `drain(..)` iterator clears it
even when the push loop bails out early), and on the error paths the state
arena is untouched, so the slots of never-pushed entries stay live. -/
theorem wait_for_progress_drains_staging {r : Reactor} {ring : KernelRing}
    {sqOracle : List SqWaitOutcome} {timeout : Option Nat}
    {submitOutcome : SubmitOutcome} {cqBefore arrivals : List CEntry}
    {res : WaitResult}
    (h : r.wait_for_progress ring sqOracle timeout submitOutcome cqBefore arrivals
      = some res) :
    res.reactor.unsubmitted = [] ∧
    (∀ errno, res.result = Except.error errno → res.reactor.tracked = r.tracked) := by
  unfold Reactor.wait_for_progress at h
  simp only [] at h
  cases hp : pushAll ring (List.map (fun p => p.2) r.unsubmitted) sqOracle with
  | none =>
    rw [hp] at h
    exact Option.noConfusion h
  | some t =>
    obtain ⟨ring', oracle', result⟩ := t
    cases result with
    | error errno =>
      simp only [hp] at h
      have heq := Option.some.inj h
      subst heq
      exact ⟨rfl, fun _ _ => rfl⟩
    | ok pushed =>
      simp only [hp] at h
      cases submitOutcome with
      | failed errno =>
        simp only [] at h
        have heq := Option.some.inj h
        subst heq
        exact ⟨rfl, fun _ _ => rfl⟩
      | etime =>
        simp only [] at h
        cases ht : timeout.isSome with
        | false =>
          simp only [ht, Bool.false_eq_true, if_false] at h
          exact Option.noConfusion h
        | true =>
          simp only [ht, if_true] at h
          cases hd : drainCompletions r.tracked (cqBefore ++ arrivals) with
          | none =>
            rw [hd] at h
            exact Option.noConfusion h
          | some u =>
            obtain ⟨tracked', woken'⟩ := u
            simp only [hd] at h
            have heq := Option.some.inj h
            subst heq
            exact ⟨rfl, fun errno habs => absurd habs (by simp)⟩
      | ok =>
        simp only [] at h
        cases hd : drainCompletions r.tracked (cqBefore ++ arrivals) with
        | none =>
          rw [hd] at h
          exact Option.noConfusion h
        | some u =>
          obtain ⟨tracked', woken'⟩ := u
          simp only [hd] at h
          have heq := Option.some.inj h
          subst heq
          exact ⟨rfl, fun errno habs => absurd habs (by simp)⟩

theorem SEntry.hasLink_withFlags_IO_LINK (e : SEntry) :
    (e.withFlags IO_LINK).hasLink = true := by
  show (e.flags ||| 4).testBit 2 = true
  rw [Nat.testBit_or]
  have h4 : Nat.testBit 4 2 = true := by decide
  rw [h4, Bool.or_true]

theorem SEntry.hasLink_withUserData (e : SEntry) (d : Nat) :
    (e.withUserData d).hasLink = e.hasLink := rfl

theorem linkSubs_length (l : List SEntry) : (linkSubs l).length = l.length := by
  induction l with
  | nil => rfl
  | cons e rest ih =>
    unfold linkSubs
    simp [ih]

theorem linkSubs_getElem? (l : List SEntry) (k : Nat) :
    (linkSubs l)[k]? =
      if k + 1 < l.length then (l[k]?).map (fun e => e.withFlags IO_LINK)
      else l[k]? := by
  induction l generalizing k with
  | nil =>
    unfold linkSubs
    simp
  | cons e rest ih =>
    unfold linkSubs
    cases k with
    | zero =>
      by_cases h : rest.length = 0
      · simp [h]
      · have h1 : 0 + 1 < rest.length + 1 := by omega
        simp [h, h1]
    | succ k =>
      have : (k + 1) + 1 < rest.length + 1 ↔ k + 1 < rest.length := by omega
      simp only [List.getElem?_cons_succ, List.length_cons, ih k, this]

/-- What the linked `submit_entries` does to the reactor, for any arity:
the staged suffix pairs the returned identifiers with the link-flagged
entries (user-data rewritten), and the invariants are preserved. -/
theorem submitEntriesLinked_facts (context : Option Waker) :
    ∀ (subs : List SEntry) (r : Reactor), r.tracked.WF → r.keysLive →
    (submitEntriesLinked r context subs).1.unsubmitted =
      r.unsubmitted ++ List.zipWith (fun i e => (i, e.withUserData i.to_bits))
        (submitEntriesLinked r context subs).2 (linkSubs subs) ∧
    (submitEntriesLinked r context subs).2.length = subs.length ∧
    (submitEntriesLinked r context subs).1.tracked.WF ∧
    (submitEntriesLinked r context subs).1.keysLive := by
  intro subs
  induction subs with
  | nil =>
    intro r hwf hkl
    exact ⟨by simp [submitEntriesLinked], rfl, hwf, hkl⟩
  | cons e rest ih =>
    intro r hwf hkl
    obtain ⟨_, _, _, hunsub, _, hwf1, hkl1⟩ := Reactor.queue_submission_facts hwf hkl
      (if rest.length ≠ 0 then e.withFlags IO_LINK else e) context
    obtain ⟨ihu, ihlen, ihwf, ihkl⟩ :=
      ih (r.queue_submission (if rest.length ≠ 0 then e.withFlags IO_LINK else e)
        context).1 hwf1 hkl1
    have heq : submitEntriesLinked r context (e :: rest) =
        ((submitEntriesLinked
            (r.queue_submission (if rest.length ≠ 0 then e.withFlags IO_LINK else e)
              context).1 context rest).1,
         (r.queue_submission (if rest.length ≠ 0 then e.withFlags IO_LINK else e)
            context).2 ::
          (submitEntriesLinked
            (r.queue_submission (if rest.length ≠ 0 then e.withFlags IO_LINK else e)
              context).1 context rest).2) := rfl
    rw [heq]
    refine ⟨?_, by simpa using ihlen, ihwf, ihkl⟩
    show (submitEntriesLinked _ context rest).1.unsubmitted = _
    rw [ihu, hunsub]
    have hlink : linkSubs (e :: rest) =
        (if rest.length ≠ 0 then e.withFlags IO_LINK else e) :: linkSubs rest := rfl
    rw [hlink]
    simp [List.append_assoc]

/-- C6: for a linked batch of arity n (2 through 5), `submit_entries`
stages exactly n entries contiguously and in declaration order, and the
first n-1 staged entries carry the kernel link flag while the last does
not (assuming, as for every operation of the repository, that the built
submissions do not already carry a link flag). -/
theorem submit_entries_links_chain {r : Reactor} {subs : List SEntry}
    (context : Option Waker) (hwf : r.tracked.WF) (hkl : r.keysLive)
    (hlo : 2 ≤ subs.length) (hhi : subs.length ≤ 5)
    (hnolink : ∀ e ∈ subs, e.hasLink = false) :
    ∃ staged : List (Index × SEntry),
      (submitEntriesLinked r context subs).1.unsubmitted =
        r.unsubmitted ++ staged ∧
      staged.length = subs.length ∧
      (∀ k, k < subs.length →
        (staged[k]?).map (fun p => p.2.op) = (subs[k]?).map SEntry.op) ∧
      (∀ k, k + 1 < subs.length →
        (staged[k]?).map (fun p => p.2.hasLink) = some true) ∧
      (staged[subs.length - 1]?).map (fun p => p.2.hasLink) = some false := by
  obtain ⟨hunsub, hlen, _, _⟩ := submitEntriesLinked_facts context subs r hwf hkl
  refine ⟨List.zipWith (fun i e => (i, e.withUserData i.to_bits))
    (submitEntriesLinked r context subs).2 (linkSubs subs), hunsub, ?_, ?_, ?_, ?_⟩
  · rw [List.length_zipWith, hlen, linkSubs_length]
    exact Nat.min_self _
  · intro k hk
    have hk1 : k < (submitEntriesLinked r context subs).2.length := by omega
    have hk2 : k < (linkSubs subs).length := by rw [linkSubs_length]; omega
    rw [List.getElem?_zipWith' ]
    rw [List.getElem?_eq_getElem hk1, List.getElem?_eq_getElem hk2,
      List.getElem?_eq_getElem (by omega : k < subs.length)]
    simp only [Option.map_some', Option.some_bind]
    have := linkSubs_getElem? subs k
    rw [List.getElem?_eq_getElem hk2, List.getElem?_eq_getElem (by omega : k < subs.length)] at this
    by_cases hkk : k + 1 < subs.length
    · rw [if_pos hkk] at this
      simp only [Option.map_some'] at this
      have hv := Option.some.inj this
      rw [hv]
      rfl
    · rw [if_neg hkk] at this
      have hv := Option.some.inj this
      rw [hv]
      rfl
  · intro k hk
    have hk1 : k < (submitEntriesLinked r context subs).2.length := by omega
    have hk2 : k < (linkSubs subs).length := by rw [linkSubs_length]; omega
    rw [List.getElem?_zipWith']
    rw [List.getElem?_eq_getElem hk1, List.getElem?_eq_getElem hk2]
    simp only [Option.map_some', Option.some_bind]
    have := linkSubs_getElem? subs k
    rw [List.getElem?_eq_getElem hk2, if_pos hk,
      List.getElem?_eq_getElem (by omega : k < subs.length)] at this
    simp only [Option.map_some'] at this
    have hv := Option.some.inj this
    rw [hv, SEntry.hasLink_withUserData, SEntry.hasLink_withFlags_IO_LINK]
  · set k := subs.length - 1 with hkdef
    have hk1 : k < (submitEntriesLinked r context subs).2.length := by omega
    have hk2 : k < (linkSubs subs).length := by rw [linkSubs_length]; omega
    rw [List.getElem?_zipWith']
    rw [List.getElem?_eq_getElem hk1, List.getElem?_eq_getElem hk2]
    simp only [Option.map_some', Option.some_bind]
    have := linkSubs_getElem? subs k
    have hkk : ¬ (k + 1 < subs.length) := by omega
    rw [List.getElem?_eq_getElem hk2, if_neg hkk,
      List.getElem?_eq_getElem (by omega : k < subs.length)] at this
    have hv := Option.some.inj this
    rw [hv, SEntry.hasLink_withUserData]
    have hmem : subs[k] ∈ subs := List.getElem_mem _
    rw [hnolink _ hmem]

theorem Reactor.ignore_operation_staged {r : Reactor} {i : Index}
    {v : OperationState}
    (hany : r.unsubmitted.any (fun p => p.1 = i) = true)
    (hget : r.tracked.get i = some v) (d : Option Blob) :
    r.ignore_operation i d =
      some ⟨r.tracked.freeSlot i, r.unsubmitted.filter (fun p => ¬ p.1 = i)⟩ := by
  unfold Reactor.ignore_operation
  simp only [hany, if_true, Arena.remove_eq hget]

/-- What `queue_submission` over a whole list does: fresh, distinct, live
identifiers, appended staging pairs, untouched other slots, preserved
invariants. -/
theorem queueAll_facts :
    ∀ (es : List (SEntry × Option Waker)) (r : Reactor),
    r.tracked.WF → r.keysLive →
    (queueAll r es).1.tracked.WF ∧
    (queueAll r es).1.keysLive ∧
    (queueAll r es).2.length = es.length ∧
    (∃ pairs, (queueAll r es).1.unsubmitted = r.unsubmitted ++ pairs ∧
      pairs.map Prod.fst = (queueAll r es).2) ∧
    (∀ i ∈ (queueAll r es).2, ((queueAll r es).1.tracked.get i).isSome = true) ∧
    ((queueAll r es).2.map Index.slot).Nodup ∧
    (∀ i ∈ (queueAll r es).2, r.tracked.slotValue i.slot = none) ∧
    (∀ n, n ∉ (queueAll r es).2.map Index.slot →
      (queueAll r es).1.tracked.slots[n]? = r.tracked.slots[n]?) := by
  intro es
  induction es with
  | nil =>
    intro r hwf hkl
    refine ⟨hwf, hkl, rfl, ⟨[], by simp [queueAll], rfl⟩, ?_, ?_, ?_, ?_⟩
    · intro i hi
      exact absurd hi (List.not_mem_nil i)
    · exact List.nodup_nil
    · intro i hi
      exact absurd hi (List.not_mem_nil i)
    · intro n _
      rfl
  | cons ec rest ih =>
    intro r hwf hkl
    obtain ⟨e, cw⟩ := ec
    obtain ⟨hfresh, hfslot, hget, hunsub, hne, hwf1, hkl1⟩ :=
      Reactor.queue_submission_facts hwf hkl e cw
    obtain ⟨ihwf, ihkl, ihlen, ⟨pairs, ihu, ihmap⟩, ihlive, ihnodup, ihfresh, ihne⟩ :=
      ih (r.queue_submission e cw).1 hwf1 hkl1
    have heq : queueAll r ((e, cw) :: rest) =
        ((queueAll (r.queue_submission e cw).1 rest).1,
         (r.queue_submission e cw).2 ::
           (queueAll (r.queue_submission e cw).1 rest).2) := rfl
    rw [heq]
    have hsv1 : (r.queue_submission e cw).1.tracked.slotValue
        (r.queue_submission e cw).2.slot = some (initialState cw) :=
      Arena.slotValue_of_get hget
    have hslotni : (r.queue_submission e cw).2.slot ∉
        ((queueAll (r.queue_submission e cw).1 rest).2.map Index.slot) := by
      intro hmem
      rw [List.mem_map] at hmem
      obtain ⟨j, hj, hjs⟩ := hmem
      have := ihfresh j hj
      rw [hjs] at this
      rw [this] at hsv1
      exact Option.noConfusion hsv1
    refine ⟨ihwf, ihkl, by simpa using ihlen, ?_, ?_, ?_, ?_, ?_⟩
    · refine ⟨(( r.queue_submission e cw).2,
        e.withUserData (r.queue_submission e cw).2.to_bits) :: pairs, ?_, ?_⟩
      · rw [ihu, hunsub]
        simp
      · simp [ihmap]
    · intro i hi
      rcases List.mem_cons.mp hi with rfl | hi'
      · have hpres := ihne (r.queue_submission e cw).2.slot hslotni
        rw [Arena.get_of_slots_eq hpres, hget]
        rfl
      · exact ihlive i hi'
    · simp only [List.map_cons]
      exact List.nodup_cons.mpr ⟨hslotni, ihnodup⟩
    · intro i hi
      rcases List.mem_cons.mp hi with rfl | hi'
      · exact hfslot
      · have hjf := ihfresh i hi'
        have hjs : i.slot ≠ (r.queue_submission e cw).2.slot := by
          intro hcontra
          rw [hcontra] at hjf
          rw [hjf] at hsv1
          exact Option.noConfusion hsv1
        rw [Arena.slotValue_unfold] at hjf ⊢
        rw [← hne i.slot hjs]
        exact hjf
    · intro n hn
      simp only [List.map_cons, List.mem_cons] at hn
      push_neg at hn
      rw [ihne n (by simpa using hn.2), hne n (Ne.symm (by exact fun h => hn.1 h.symm))]

/-- `ignore_operation` over a list of distinct, live, still-staged
identifiers: every call takes the staging-buffer branch, the ids leave
the staging buffer, their slots are freed, and everything else is
untouched. -/
theorem ignoreAll_staged (f : Index → Option Blob) :
    ∀ (ids : List Index) (r : Reactor), r.tracked.WF →
    (∀ i ∈ ids, (r.tracked.get i).isSome = true) →
    (∀ i ∈ ids, r.unsubmitted.any (fun p => p.1 = i) = true) →
    (ids.map Index.slot).Nodup →
    ∃ r2, ignoreAll r f ids = some r2 ∧
      r2.unsubmitted = r.unsubmitted.filter (fun p => p.1 ∉ ids) ∧
      (∀ n, n ∈ ids.map Index.slot → r2.tracked.slotValue n = none) ∧
      (∀ n, n ∉ ids.map Index.slot → r2.tracked.slots[n]? = r.tracked.slots[n]?) ∧
      r2.tracked.WF := by
  intro ids
  induction ids with
  | nil =>
    intro r hwf _ _ _
    refine ⟨r, rfl, ?_, ?_, fun n _ => rfl, hwf⟩
    · rw [List.filter_eq_self.mpr]
      intro p _
      simp
    · intro n hn
      exact absurd hn (List.not_mem_nil n)
  | cons i rest ih =>
    intro r hwf hlive hstaged hnodup
    have hgeti : ∃ v, r.tracked.get i = some v := by
      rw [← Option.isSome_iff_exists]
      exact hlive i (List.mem_cons_self i rest)
    obtain ⟨v, hget⟩ := hgeti
    have hstep := Reactor.ignore_operation_staged
      (hstaged i (List.mem_cons_self i rest)) hget (f i)
    have hinotrest : i.slot ∉ rest.map Index.slot :=
      (List.nodup_cons.mp (by simpa using hnodup)).1
    obtain ⟨hfs1, hfs2, _, _⟩ := Arena.freeSlot_spec hget
    have hwf' : (r.tracked.freeSlot i).WF := Arena.WF_freeSlot hwf hget
    set r' : Reactor :=
      ⟨r.tracked.freeSlot i, r.unsubmitted.filter (fun p => ¬ p.1 = i)⟩ with hr'
    have hlive' : ∀ j ∈ rest, (r'.tracked.get j).isSome = true := by
      intro j hj
      have hjs : j.slot ≠ i.slot := by
        intro hcontra
        exact hinotrest (hcontra ▸ List.mem_map_of_mem Index.slot hj)
      rw [hr']
      show ((r.tracked.freeSlot i).get j).isSome = true
      rw [Arena.get_of_slots_eq (hfs2 j.slot hjs)]
      exact hlive j (List.mem_cons_of_mem i hj)
    have hstaged' : ∀ j ∈ rest, r'.unsubmitted.any (fun p => p.1 = j) = true := by
      intro j hj
      have hjne : j ≠ i := by
        intro hcontra
        exact hinotrest (hcontra ▸ List.mem_map_of_mem Index.slot hj)
      have := hstaged j (List.mem_cons_of_mem i hj)
      rw [List.any_eq_true] at this ⊢
      obtain ⟨p, hp, hpj⟩ := this
      refine ⟨p, ?_, hpj⟩
      rw [hr']
      show p ∈ r.unsubmitted.filter (fun p => ¬ p.1 = i)
      rw [List.mem_filter]
      refine ⟨hp, ?_⟩
      simp only [decide_not]
      have : p.1 = j := by simpa using hpj
      simp [this, hjne]
    obtain ⟨r2, hrec, hu2, hin2, hout2, hwf2⟩ :=
      ih r' hwf' hlive' hstaged' (List.nodup_cons.mp (by simpa using hnodup)).2
    refine ⟨r2, ?_, ?_, ?_, ?_, hwf2⟩
    · show (match r.ignore_operation i (f i) with
        | none => none
        | some r => ignoreAll r f rest) = some r2
      rw [hstep]
      exact hrec
    · rw [hu2, hr']
      show (r.unsubmitted.filter (fun p => ¬ p.1 = i)).filter
          (fun p => p.1 ∉ rest) = _
      rw [List.filter_filter]
      apply List.filter_congr
      intro p _
      by_cases h1 : p.1 = i <;> by_cases h2 : p.1 ∈ rest <;>
        simp [List.mem_cons, h1, h2]
    · intro n hn
      rw [List.map_cons, List.mem_cons] at hn
      rcases hn with rfl | hn'
      · rw [Arena.slotValue_unfold, hout2 i.slot hinotrest]
        rw [Arena.slotValue_unfold] at hfs1
        exact hfs1
      · exact hin2 n hn'
    · intro n hn
      simp only [List.map_cons, List.mem_cons] at hn
      push_neg at hn
      rw [hout2 n (by simpa using hn.2), hr']
      exact hfs2 n (hn.1)

/-- C5: staging N operations and then ignoring each returned identifier,
with no intervening `wait_for_progress`, leaves the state arena with zero
live slots and the staging buffer empty — as if the operations had never
been queued. -/
theorem stage_then_ignore_roundtrip {r : Reactor} (hwf : r.tracked.WF)
    (hempty : r.unsubmitted = []) (hzero : r.tracked.liveCount = 0)
    (es : List (SEntry × Option Waker)) (f : Index → Option Blob) :
    ∃ r2, ignoreAll (queueAll r es).1 f (queueAll r es).2 = some r2 ∧
      r2.unsubmitted = [] ∧ r2.tracked.liveCount = 0 := by
  have hkl : r.keysLive := by
    intro p hp
    rw [hempty] at hp
    exact absurd hp (List.not_mem_nil p)
  obtain ⟨hwf1, hkl1, hlen, ⟨pairs, hu1, hmap⟩, hlive1, hnodup, hfresh, hne1⟩ :=
    queueAll_facts es r hwf hkl
  have hstaged : ∀ i ∈ (queueAll r es).2,
      (queueAll r es).1.unsubmitted.any (fun p => p.1 = i) = true := by
    intro i hi
    rw [List.any_eq_true]
    rw [← hmap, List.mem_map] at hi
    obtain ⟨p, hp, hpi⟩ := hi
    refine ⟨p, ?_, by simp [hpi]⟩
    rw [hu1, hempty]
    simpa using hp
  obtain ⟨r2, hig, hu2, hin2, hout2, hwf2⟩ :=
    ignoreAll_staged f (queueAll r es).2 (queueAll r es).1 hwf1 hlive1 hstaged hnodup
  refine ⟨r2, hig, ?_, ?_⟩
  · rw [hu2, hu1, hempty]
    simp only [List.nil_append]
    rw [List.filter_eq_nil_iff]
    intro p hp
    have hpmem : p.1 ∈ (queueAll r es).2 := by
      rw [← hmap]
      exact List.mem_map_of_mem Prod.fst hp
    simp [hpmem]
  · have hallnone : ∀ s ∈ r.tracked.slots, s.value = none := by
      intro s hs
      have hz := hzero
      unfold Arena.liveCount at hz
      rw [List.length_eq_zero, List.filter_eq_nil_iff] at hz
      have h2 := hz s hs
      simpa using h2
    have hallnone2 : ∀ s ∈ r2.tracked.slots, s.value = none := by
      intro s hs
      obtain ⟨n, hn⟩ := List.getElem?_of_mem hs
      by_cases hcase : n ∈ (queueAll r es).2.map Index.slot
      · have hv := hin2 n hcase
        rw [Arena.slotValue_unfold, hn] at hv
        exact hv
      · have hchain := hout2 n hcase
        rw [hn] at hchain
        have hchain2 := hne1 n hcase
        rw [hchain2] at hchain
        have hmem : s ∈ r.tracked.slots := by
          rw [List.mem_iff_getElem?]
          exact ⟨n, hchain.symm⟩
        exact hallnone s hmem
    unfold Arena.liveCount
    rw [List.length_eq_zero, List.filter_eq_nil_iff]
    intro s hs
    simp [hallnone2 s hs]

/-- C7 (failing input): the staging drain of `wait_for_progress` does not
submit link chains atomically.  A two-operation linked batch staged on a
full-capacity-1 kernel ring, with `squeue_wait` failing, leaves exactly
the chain's first, link-flagged entry in the kernel ring while the second
entry is discarded from the staging buffer: the chain is partially
submitted, contradicting the all-or-nothing requirement. -/
theorem link_chain_partial_submission :
    (((submitEntriesLinked Reactor.fresh (some 1)
          [⟨10, 0, 0⟩, ⟨20, 0, 0⟩]).1.wait_for_progress
        ⟨1, [], []⟩ [SqWaitOutcome.failed 11] none SubmitOutcome.ok [] []).map
      (fun res => (res.ring.pending.map SEntry.hasLink, res.ring.consumed.length,
        res.reactor.unsubmitted.length, res.result.isOk)))
    = some ([true], 0, 0, false) := by
  decide


/-! ## Witnesses: concrete instantiations of the hypothesised theorems -/

/-- Witness for C1 at a concrete waiting slot. -/
theorem processCompletion_cases_witness :
    Index.from_bits eDone.user_data = some ⟨0, 1⟩ ∧
    (arenaWith (OperationState.Waiting 7)).get ⟨0, 1⟩ =
      some (OperationState.Waiting 7) ∧
    processCompletion (arenaWith (OperationState.Waiting 7)) eDone =
      some ((arenaWith (OperationState.Waiting 7)).setVal ⟨0, 1⟩
        (OperationState.Completed eDone), [7]) :=
  ⟨by decide, by decide, (processCompletion_cases (by decide)).1 7 (by decide)⟩

/-- Witness for C2 at a concrete two-entry buffering slot. -/
theorem poll_completion_buffering_witness :
    (reactorWith (OperationState.Buffering [eMore, eDone])).tracked.get ⟨0, 1⟩ =
      some (OperationState.Buffering (eMore :: [eDone])) ∧
    (reactorWith (OperationState.Buffering [eMore, eDone])).poll_completion ⟨0, 1⟩ 7 =
      some (Poll.Ready eMore,
        ⟨(reactorWith (OperationState.Buffering [eMore, eDone])).tracked.setVal ⟨0, 1⟩
            (OperationState.Buffering [eDone]),
          (reactorWith (OperationState.Buffering [eMore, eDone])).unsubmitted⟩,
        [7]) :=
  ⟨by decide, (poll_completion_buffering 7 (by decide)).1 (by decide)⟩

/-- Witness for C3 at a concrete terminal completed slot. -/
theorem poll_completion_completed_witness :
    (reactorWith (OperationState.Completed eDone)).tracked.get ⟨0, 1⟩ =
      some (OperationState.Completed eDone) ∧
    cqueueMore eDone.flags = false ∧
    ((reactorWith (OperationState.Completed eDone)).poll_completion ⟨0, 1⟩ 7 =
      some (Poll.Ready eDone,
        ⟨(reactorWith (OperationState.Completed eDone)).tracked.freeSlot ⟨0, 1⟩,
          (reactorWith (OperationState.Completed eDone)).unsubmitted⟩, []) ∧
    ((reactorWith (OperationState.Completed eDone)).tracked.freeSlot ⟨0, 1⟩).get
      ⟨0, 1⟩ = none) :=
  ⟨by decide, by decide, (poll_completion_completed 7 (by decide)).2 (by decide)⟩

/-- Witness for C4: ignoring a terminally-completed, no-longer-staged
operation frees its slot. -/
theorem ignore_operation_submitted_witness :
    ((reactorWith (OperationState.Completed eDone)).unsubmitted.any
      (fun p => p.1 = (⟨0, 1⟩ : Index))) = false ∧
    (reactorWith (OperationState.Completed eDone)).tracked.get ⟨0, 1⟩ =
      some (OperationState.Completed eDone) ∧
    cqueueMore eDone.flags = false ∧
    ((reactorWith (OperationState.Completed eDone)).ignore_operation ⟨0, 1⟩ (some 3) =
      some ⟨(reactorWith (OperationState.Completed eDone)).tracked.freeSlot ⟨0, 1⟩,
        (reactorWith (OperationState.Completed eDone)).unsubmitted⟩ ∧
    ((reactorWith (OperationState.Completed eDone)).tracked.freeSlot ⟨0, 1⟩).get
      ⟨0, 1⟩ = none) :=
  ⟨by decide, by decide, by decide,
    ((ignore_operation_submitted (some 3) (by decide)).2.2.1 eDone (by decide)).2
      (by decide)⟩

/-- Witness for C5: two staged then ignored operations from a fresh
reactor. -/
theorem stage_then_ignore_roundtrip_witness :
    Reactor.fresh.tracked.WF ∧
    Reactor.fresh.unsubmitted = [] ∧
    Reactor.fresh.tracked.liveCount = 0 ∧
    (∃ r2, ignoreAll
        (queueAll Reactor.fresh [(⟨1, 0, 0⟩, some 7), (⟨2, 0, 0⟩, none)]).1
        (fun _ => none)
        (queueAll Reactor.fresh [(⟨1, 0, 0⟩, some 7), (⟨2, 0, 0⟩, none)]).2 =
        some r2 ∧
      r2.unsubmitted = [] ∧ r2.tracked.liveCount = 0) :=
  ⟨by decide, rfl, by decide,
    stage_then_ignore_roundtrip (by decide) rfl (by decide)
      [(⟨1, 0, 0⟩, some 7), (⟨2, 0, 0⟩, none)] (fun _ => none)⟩

/-- Witness for C6: a two-operation linked batch staged on a fresh
reactor. -/
theorem submit_entries_links_chain_witness :
    Reactor.fresh.tracked.WF ∧
    Reactor.fresh.keysLive ∧
    2 ≤ ([⟨1, 0, 0⟩, ⟨2, 0, 0⟩] : List SEntry).length ∧
    ([⟨1, 0, 0⟩, ⟨2, 0, 0⟩] : List SEntry).length ≤ 5 ∧
    (∀ e ∈ ([⟨1, 0, 0⟩, ⟨2, 0, 0⟩] : List SEntry), e.hasLink = false) ∧
    (∃ staged : List (Index × SEntry),
      (submitEntriesLinked Reactor.fresh (some 7)
        [⟨1, 0, 0⟩, ⟨2, 0, 0⟩]).1.unsubmitted =
        Reactor.fresh.unsubmitted ++ staged ∧
      staged.length = ([⟨1, 0, 0⟩, ⟨2, 0, 0⟩] : List SEntry).length ∧
      (∀ k, k < ([⟨1, 0, 0⟩, ⟨2, 0, 0⟩] : List SEntry).length →
        (staged[k]?).map (fun p => p.2.op) =
          (([⟨1, 0, 0⟩, ⟨2, 0, 0⟩] : List SEntry)[k]?).map SEntry.op) ∧
      (∀ k, k + 1 < ([⟨1, 0, 0⟩, ⟨2, 0, 0⟩] : List SEntry).length →
        (staged[k]?).map (fun p => p.2.hasLink) = some true) ∧
      (staged[([⟨1, 0, 0⟩, ⟨2, 0, 0⟩] : List SEntry).length - 1]?).map
        (fun p => p.2.hasLink) = some false) :=
  ⟨by decide, by decide, by decide, by decide, by decide,
    submit_entries_links_chain (some 7) (by decide) (by decide) (by decide)
      (by decide) (by decide)⟩

/-- Witness for C8: queueing one entry on a fresh reactor. -/
theorem queue_submission_behaviour_witness :
    Reactor.fresh.tracked.WF ∧
    Reactor.fresh.keysLive ∧
    (Reactor.fresh.tracked.get
        (Reactor.fresh.queue_submission ⟨1, 2, 3⟩ (some 7)).2 = none ∧
      (Reactor.fresh.queue_submission ⟨1, 2, 3⟩ (some 7)).1.tracked.get
        (Reactor.fresh.queue_submission ⟨1, 2, 3⟩ (some 7)).2 =
        some (OperationState.Waiting 7) ∧
      (Reactor.fresh.queue_submission ⟨1, 2, 3⟩ (some 7)).1.unsubmitted =
        Reactor.fresh.unsubmitted ++
          [((Reactor.fresh.queue_submission ⟨1, 2, 3⟩ (some 7)).2,
            SEntry.withUserData ⟨1, 2, 3⟩
              (Reactor.fresh.queue_submission ⟨1, 2, 3⟩ (some 7)).2.to_bits)] ∧
      (SEntry.withUserData ⟨1, 2, 3⟩
          (Reactor.fresh.queue_submission ⟨1, 2, 3⟩ (some 7)).2.to_bits).user_data =
        (Reactor.fresh.queue_submission ⟨1, 2, 3⟩ (some 7)).2.to_bits ∧
      (Reactor.fresh.userDataConsistent →
        (Reactor.fresh.queue_submission ⟨1, 2, 3⟩ (some 7)).1.userDataConsistent)) :=
  ⟨by decide, by decide,
    queue_submission_behaviour (by decide) (by decide) ⟨1, 2, 3⟩ (some 7)⟩

/-- Witness for C9 at both an `Ignored(None)` and an `Ignored(Some _)`
slot. -/
theorem poll_completion_ignored_witness :
    (reactorWith (OperationState.Ignored none)).tracked.get ⟨0, 1⟩ =
      some (OperationState.Ignored none) ∧
    (reactorWith (OperationState.Ignored none)).poll_completion ⟨0, 1⟩ 7 =
      some (Poll.Pending,
        ⟨(reactorWith (OperationState.Ignored none)).tracked.setVal ⟨0, 1⟩
            (OperationState.Waiting 7),
          (reactorWith (OperationState.Ignored none)).unsubmitted⟩, []) ∧
    (reactorWith (OperationState.Ignored (some 3))).tracked.get ⟨0, 1⟩ =
      some (OperationState.Ignored (some 3)) ∧
    (reactorWith (OperationState.Ignored (some 3))).poll_completion ⟨0, 1⟩ 7 =
      none :=
  ⟨by decide, (poll_completion_ignored 7).1 (by decide), by decide,
    (poll_completion_ignored 7).2 3 (by decide)⟩

/-- Witness for C10: a trivial `wait_for_progress` call on a fresh
reactor. -/
theorem wait_for_progress_drains_staging_witness :
    Reactor.fresh.wait_for_progress ⟨4, [], []⟩ [] none SubmitOutcome.ok [] [] =
      some ⟨Reactor.fresh, ⟨4, [], []⟩, [], Except.ok ()⟩ ∧
    ((⟨Reactor.fresh, ⟨4, [], []⟩, [], Except.ok ()⟩ : WaitResult).reactor.unsubmitted
        = [] ∧
      (∀ errno, (⟨Reactor.fresh, ⟨4, [], []⟩, [], Except.ok ()⟩ : WaitResult).result =
          Except.error errno →
        (⟨Reactor.fresh, ⟨4, [], []⟩, [], Except.ok ()⟩ : WaitResult).reactor.tracked =
          Reactor.fresh.tracked)) :=
  ⟨by decide,
    @wait_for_progress_drains_staging Reactor.fresh ⟨4, [], []⟩ [] none
      SubmitOutcome.ok [] [] ⟨Reactor.fresh, ⟨4, [], []⟩, [], Except.ok ()⟩
      (by decide)⟩
